import Mathlib

/-!
Verification of the Merkle tree core of the `newton` repository.

The main development embeds `src/blockchain/merkle.rs` (the bound-tracking
variant): the `MerkleBranch`/`MerkleTree` data model, `construct`, `validate`,
`validate_pruned`, `contains`, `prune` and their helpers.  A second, smaller
namespace `DigestOnly` embeds the digest-only variant of
`validate_internal_node` from `src/merkle.rs`, and `MerkleProof.verify` from
`src/merkle_proof.rs` is embedded as well.

The external content-hash primitive (sha2 over strings, `src/hash.rs`) is kept
abstract: every definition is parametric in `H : String → String` (the hash of
a `String`, `Hashable for String`) and `hashf : T → String` (the item hash,
`T::get_hash`).  Machine integers: the only integer in the model is the node
height, a Rust `usize` used purely as a counter that is incremented at most
once per tree level, so it can never approach `2^64`; it is modelled as `Nat`.
Error-message strings are reproduced verbatim except that apostrophes are
dropped (so "A leaf hash failed a hash check" stands for the source message
with the possessive); no theorem depends on those two message texts.
-/

namespace Newton

/-- Children types of a `MerkleTree`, from `src/blockchain/merkle.rs`.
The Rust `MerkleBranch::Branch` boxes a whole `MerkleTree` struct (fields
`left`, `right`, `l_bound`, `r_bound`, `mrkl_root`, `height`); here the boxed
struct is inlined into the `Branch` constructor, and the standalone
`MerkleTree` record below is the struct itself.  `Partial` is renamed
`Pruned`. -/
inductive MerkleBranch (T : Type) : Type where
  | Branch (left right : MerkleBranch T) (l_bound r_bound : T)
      (mrkl_root : String) (height : Nat) : MerkleBranch T
  | Leaf (item : T) (hash : String) : MerkleBranch T
  | Pruned (hash : String) : MerkleBranch T
  | Empty : MerkleBranch T
deriving DecidableEq

/-- The `MerkleTree<T>` struct of `src/blockchain/merkle.rs`. -/
structure MerkleTree (T : Type) : Type where
  left : MerkleBranch T
  right : MerkleBranch T
  l_bound : T
  r_bound : T
  mrkl_root : String
  height : Nat
deriving DecidableEq

/-- View a `MerkleTree` struct as the branch that boxes it
(`MerkleBranch::Branch(Box::new(tree))`). -/
def MerkleTree.toBranch {T : Type} (t : MerkleTree T) : MerkleBranch T :=
  .Branch t.left t.right t.l_bound t.r_bound t.mrkl_root t.height

/-- The validation result enumeration `MrklVR`. -/
inductive MrklVR : Type where
  | Valid : MrklVR
  | InvalidHash (msg : String) : MrklVR
  | InvalidTree (msg : String) : MrklVR
deriving DecidableEq

namespace MrklVR
end MrklVR

variable {T : Type}

/-- The multiset of items stored in the leaves of a branch, left to right. -/
def itemsB : MerkleBranch T → List T
  | .Branch l r _ _ _ _ => itemsB l ++ itemsB r
  | .Leaf it _ => [it]
  | .Pruned _ => []
  | .Empty => []

/-- The items of a tree, left to right. -/
def MerkleTree.items (t : MerkleTree T) : List T := itemsB t.toBranch

/-- `MerkleTree::validate_internal_node` of `src/blockchain/merkle.rs`
(lines 485-518).  Its body reads only `mrkl_root` and `height` of `self`, of
`left_node` and of the optional `right_node`, which are passed here directly.
Note the second condition is `right_has_correct_height` NOT negated, exactly
as in the source (line 511). -/
def validate_internal_node (H : String → String) (self_root : String) (self_height : Nat)
    (left_root : String) (left_height : Nat) (right : Option (String × Nat)) : MrklVR :=
  let hash1 : String :=
    match right with
    | some rn => left_root ++ rn.1
    | none => left_root
  let right_has_correct_height : Bool :=
    match right with
    | some rn => decide (self_height = rn.2 + 1)
    | none => true
  let hash := H hash1
  if hash = self_root ∧ self_height = left_height + 1 ∧ right_has_correct_height = true then
    .Valid
  else if self_height ≠ left_height + 1 ∨ right_has_correct_height = true then
    .InvalidTree ("An internal node has height which differs from 1 + (child height)")
  else
    .InvalidHash ("An internal node has an unexpected mrkl_root")

/-- The final checks of `MerkleTree::validate_fringe_node` (lines 552-568),
after the concatenated hash and the right-hash flag have been computed. -/
def fringe_checks (hashf : T → String) (self_root : String) (self_height : Nat)
    (left_it : T) (left_hash : String) (hash : String) (right_hash_is_valid : Bool) : MrklVR :=
  if hashf left_it = left_hash ∧ right_hash_is_valid = true ∧ self_root = hash ∧
      self_height = 0 then
    .Valid
  else if self_root ≠ hash then
    .InvalidHash ("A fringe node has an unexpected mrkl_root")
  else if self_height ≠ 0 then
    .InvalidTree ("A fringe node has nonzero height")
  else
    .InvalidHash ("A leaf hash failed a hash check")

/-- `MerkleTree::validate_fringe_node` of `src/blockchain/merkle.rs`
(lines 525-569). -/
def validate_fringe_node (H : String → String) (hashf : T → String)
    (self_root : String) (self_height : Nat) (left_it : T) (left_hash : String)
    (right_it : Option T) (right_hash : Option String) : MrklVR :=
  match right_it, right_hash with
  | some r, some r_hash =>
      fringe_checks hashf self_root self_height left_it left_hash
        (H (left_hash ++ r_hash)) (decide (hashf r = r_hash))
  | none, none =>
      fringe_checks hashf self_root self_height left_it left_hash (H left_hash) true
  | _, _ =>
      .InvalidTree ("Upon validating a fringe node, expected both right_it and right_hash to be None")

/-- The body of `MerkleTree::validate_pruned_node` (lines 578-613), with the
result of the recursive `node.validate()` call of its `Branch` arm passed in
as `sub` (the caller computes it; in the other three arms the source makes no
recursive call and `sub` is ignored).  Note the source pushes
`pruned_hash` before the branch root in the `Branch` arm but pushes the leaf
hash before `pruned_hash` in the `Leaf` arm, ignoring which side the
`Partial` child was actually on. -/
def validate_pruned_node (H : String → String) (hashf : T → String)
    (self_root pruned_hash : String) (other : MerkleBranch T) (sub : MrklVR) : MrklVR :=
  match other with
  | .Branch _ _ _ _ oroot _ =>
      match sub with
      | .Valid =>
          if self_root = H (pruned_hash ++ oroot) then .Valid
          else .InvalidHash ("An internal node had an unexpected mrkl_root")
      | res => res
  | .Leaf item item_hash =>
      let hash := H (item_hash ++ pruned_hash)
      if item_hash = hashf item ∧ hash = self_root then .Valid
      else if item_hash ≠ hashf item then .InvalidHash ("A leaf hash failed a hash check")
      else .InvalidHash ("A fringe node has an unexpected mrkl_root")
  | .Pruned _ => .InvalidTree ("Invalid pruned tree. Only one child may be pruned.")
  | .Empty => .InvalidTree ("Invalid pruned tree. Every node must have at least one valid child. This node has one empty and one partial child.")

/-- `MerkleTree::_validate` of `src/blockchain/merkle.rs` (lines 396-474),
on the branch view of a tree.  The match arms follow the source order; the
or-pattern `(Partial(hash), other) | (other, Partial(hash))` becomes two
arms with identical right-hand sides.  In the `Partial` arms the strict
sub-validation `node.validate()` performed inside `validate_pruned_node`
is computed here (structurally on the sibling) and passed in.  The source
function is only ever applied to `MerkleTree` values, i.e. to `Branch`
nodes; the final catch-all for non-`Branch` arguments is unreachable from
the Rust API. -/
def validateB (H : String → String) (hashf : T → String) (pruned : Bool) :
    MerkleBranch T → MrklVR
  | .Branch l r _ _ root ht =>
    match l, r with
    | .Branch ll lr llb lrb lroot lht, .Branch rl rr rlb rrb rroot rht =>
        match validateB H hashf pruned (.Branch ll lr llb lrb lroot lht),
              validateB H hashf pruned (.Branch rl rr rlb rrb rroot rht) with
        | .Valid, .Valid => validate_internal_node H root ht lroot lht (some (rroot, rht))
        | .InvalidHash m, _ => .InvalidHash m
        | _, .InvalidHash m => .InvalidHash m
        | res, _ => res
    | .Branch ll lr llb lrb lroot lht, .Empty =>
        match validateB H hashf pruned (.Branch ll lr llb lrb lroot lht) with
        | .Valid => validate_internal_node H root ht lroot lht none
        | res => res
    | .Leaf left_it left_hash, .Leaf right_it right_hash =>
        validate_fringe_node H hashf root ht left_it left_hash (some right_it) (some right_hash)
    | .Leaf left_it left_hash, .Empty =>
        validate_fringe_node H hashf root ht left_it left_hash none none
    | .Pruned _, .Pruned _ =>
        .InvalidTree ("Invalid pruned tree. Only one child may be pruned.")
    | .Pruned h, other =>
        if pruned = false then .InvalidTree ("Unexpected pruned tree.")
        else validate_pruned_node H hashf root h other (validateB H hashf false other)
    | other, .Pruned h =>
        if pruned = false then .InvalidTree ("Unexpected pruned tree.")
        else validate_pruned_node H hashf root h other (validateB H hashf false other)
    | _, _ => .InvalidTree ("Malformed tree")
  | _ => .InvalidTree ("Malformed tree")

/-- `MerkleTree::validate` (strict mode). -/
def MerkleTree.validate (H : String → String) (hashf : T → String) (t : MerkleTree T) : MrklVR :=
  validateB H hashf false t.toBranch

/-- `MerkleTree::validate_pruned`. -/
def MerkleTree.validate_pruned (H : String → String) (hashf : T → String)
    (t : MerkleTree T) : MrklVR :=
  validateB H hashf true t.toBranch

/-- `MerkleTree::find_min` (lines 310-316): leftmost leaf value. -/
def find_minB : MerkleBranch T → Except String T
  | .Branch l _ _ _ _ _ =>
      match l with
      | .Branch ll lr llb lrb lroot lht => find_minB (.Branch ll lr llb lrb lroot lht)
      | .Leaf value _ => .ok value
      | _ => .error ("Could not go left anymore when finding minimum element")
  | _ => .error ("Could not go left anymore when finding minimum element")

/-- `MerkleTree::find_min_right` (lines 295-301): leftmost leaf of the right
child. -/
def find_min_rightB : MerkleBranch T → Except String T
  | .Branch _ r _ _ _ _ =>
      match r with
      | .Branch rl rr rlb rrb rroot rht => find_minB (.Branch rl rr rlb rrb rroot rht)
      | .Leaf value _ => .ok value
      | _ => .error ("There is nowhere to search to the right to find the minimum element")
  | _ => .error ("There is nowhere to search to the right to find the minimum element")

/-- The match over `search_branch` in `MerkleTree::contains` (lines 341-346),
with the recursive `node.contains(item)` result of the `Branch` arm passed in
as `rec` by the caller (the other arms make no recursive call and ignore
it). -/
def search_step [LinearOrder T] (item : T) (sb : MerkleBranch T)
    (rec : Except String Bool) : Except String Bool :=
  match sb with
  | .Branch _ _ _ _ _ _ => rec
  | .Leaf value _ => .ok (decide (value = item))
  | .Pruned _ => .error ("Could not search further in pruned tree")
  | .Empty => .ok false

/-- `MerkleTree::contains` of `src/blockchain/merkle.rs` (lines 334-347), on
the branch view: select `search_branch` with `if *item <= self.l_bound`,
then dispatch on it (`search_step`).  The catch-all for non-`Branch`
arguments is unreachable from the Rust API. -/
def containsB [LinearOrder T] (item : T) : MerkleBranch T → Except String Bool
  | .Branch l r lb _ _ _ =>
      if item ≤ lb then search_step item l (containsB item l)
      else search_step item r (containsB item r)
  | _ => .ok false

/-- `MerkleTree::contains` on the tree struct. -/
def MerkleTree.contains [LinearOrder T] (item : T) (t : MerkleTree T) : Except String Bool :=
  containsB item t.toBranch

/-- One step of `MerkleTree::prune_recurse` (lines 264-286).  The recursive
`node.prune(to_keep)` result of the not-pruned `Branch` arm is passed in as
`rec` by the caller (the other arms make no recursive call and ignore it).
The boolean is the success flag, the branch is the (possibly mutated)
branch. -/
def prune_step (br : MerkleBranch T) (should_prune : Bool)
    (rec : Bool × MerkleBranch T) : Bool × MerkleBranch T :=
  if should_prune then
    match br with
    | .Branch _ _ _ _ root _ => (true, .Pruned root)
    | .Leaf _ hash => (true, .Pruned hash)
    | .Pruned hash => (true, .Pruned hash)
    | .Empty => (false, .Empty)
  else
    match br with
    | .Branch _ _ _ _ _ _ => rec
    | other => (true, other)

/-- `MerkleTree::prune` of `src/blockchain/merkle.rs` (lines 221-261), on the
branch view; in-place mutation becomes returning the new tree next to the
success flag.  Control flow follows the source: strict validation gate, the
empty `to_keep` gate, the `prune_left` loop, pruning the left branch, the
`find_min_right` match whose error arm returns early with the right branch
untouched, the `prune_right` loop, and the short-circuit
`result && prune_recurse(..right..)` that skips the right branch when the
left recursion failed.  The recursive calls into the two children are passed
to `prune_step` (see there).  The catch-all for non-`Branch` arguments is
unreachable from the Rust API. -/
def pruneB [LinearOrder T] (H : String → String) (hashf : T → String) (to_keep : List T) :
    MerkleBranch T → Bool × MerkleBranch T
  | .Branch l r lb rb root ht =>
      match validateB H hashf false (.Branch l r lb rb root ht) with
      | .Valid =>
          if to_keep.length ≤ 0 then (false, .Branch l r lb rb root ht)
          else
            let prune_left : Bool := to_keep.all (fun e => ! decide (e ≤ lb))
            let res1 := pruneB H hashf to_keep l
            let step1 := prune_step l prune_left res1
            match find_min_rightB (.Branch l r lb rb root ht) with
            | .error _ => (step1.1, .Branch step1.2 r lb rb root ht)
            | .ok min_right =>
                let prune_right : Bool := to_keep.all (fun e => ! decide (min_right ≤ e))
                if step1.1 then
                  let res2 := pruneB H hashf to_keep r
                  let step2 := prune_step r prune_right res2
                  (step2.1, .Branch step1.2 step2.2 lb rb root ht)
                else (false, .Branch step1.2 r lb rb root ht)
      | _ => (false, .Branch l r lb rb root ht)
  | b => (false, b)

/-- `MerkleTree::prune` on the tree struct. -/
def MerkleTree.prune [LinearOrder T] (H : String → String) (hashf : T → String)
    (to_keep : List T) (t : MerkleTree T) : Bool × MerkleTree T :=
  match pruneB H hashf to_keep t.toBranch with
  | (b, .Branch l r lb rb root ht) => (b, ⟨l, r, lb, rb, root, ht⟩)
  | (b, _) => (b, t)

/-- The fringe row of `MerkleTree::construct` (lines 142-150 together with
`construct_fringe_node`, lines 649-683): the sorted data is consumed two
items at a time into height-0 nodes; a trailing odd item gets an `Empty`
right branch, with `l_bound` and `r_bound` both that item. -/
def construct_fringe_nodes (H : String → String) (hashf : T → String) :
    List T → List (MerkleTree T)
  | [] => []
  | [x] => [⟨.Leaf x (hashf x), .Empty, x, x, H (hashf x), 0⟩]
  | x :: y :: rest =>
      ⟨.Leaf x (hashf x), .Leaf y (hashf y), x, y, H (hashf x ++ hashf y), 0⟩ ::
        construct_fringe_nodes H hashf rest

/-- One internal level of `MerkleTree::construct` (lines 158-166 together
with `construct_internal_node`, lines 689-722): the previous row is consumed
two nodes at a time into height-`height` nodes; a trailing odd node gets an
`Empty` right branch.  `l_bound` is the left child `r_bound`, `r_bound` the
right child `r_bound` (or again the left child `r_bound` for an odd
trailer). -/
def construct_internal_nodes (H : String → String) (height : Nat) :
    List (MerkleTree T) → List (MerkleTree T)
  | [] => []
  | [a] => [⟨a.toBranch, .Empty, a.r_bound, a.r_bound, H a.mrkl_root, height⟩]
  | a :: b :: rest =>
      ⟨a.toBranch, b.toBranch, a.r_bound, b.r_bound, H (a.mrkl_root ++ b.mrkl_root), height⟩ ::
        construct_internal_nodes H height rest

/-- The `while mrkl_trees.len() > 1` loop of `MerkleTree::construct`
(lines 152-171), ending with `mrkl_trees.remove(0)`.  The loop terminates
because each level at least halves a row of length two or more; `fuel` is an
upper bound on the number of levels, and `construct` passes a provably
sufficient bound (`build_loop_some` below), so the `none` outcomes are
unreachable from `construct`. -/
def build_loop (H : String → String) : Nat → List (MerkleTree T) → Nat → Option (MerkleTree T)
  | _, [], _ => none
  | _, [t], _ => some t
  | 0, _ :: _ :: _, _ => none
  | fuel + 1, a :: b :: rest, height =>
      build_loop H fuel (construct_internal_nodes H height (a :: b :: rest)) (height + 1)

/-- `MerkleTree::construct` of `src/blockchain/merkle.rs` (lines 128-172):
sort, reject empty input, build the fringe row, then combine rows of nodes
until one remains.  Rust `Vec::sort` is a stable ascending sort; over a
linear order the sorted permutation of a list is unique, so it is modelled
by `List.insertionSort`. -/
def construct [LinearOrder T] (H : String → String) (hashf : T → String)
    (data : List T) : Except String (MerkleTree T) :=
  let sorted := data.insertionSort (· ≤ ·)
  if sorted.length < 1 then
    .error ("Not enough data to construct Merkle Tree. Must receive at least two items.")
  else
    match build_loop H sorted.length (construct_fringe_nodes H hashf sorted) 1 with
    | some t => .ok t
    | none => .error ("Merkle tree construction did not converge")

/-- `MerkleTree::validate_internal_node` of the digest-only variant
`src/merkle.rs` (lines 300-333).  Identical to the blockchain variant except
that its second condition negates the right-height flag
(`!right_has_correct_height`, line 326). -/
def DigestOnly.validate_internal_node (H : String → String) (self_root : String)
    (self_height : Nat) (left_root : String) (left_height : Nat)
    (right : Option (String × Nat)) : MrklVR :=
  let hash1 : String :=
    match right with
    | some rn => left_root ++ rn.1
    | none => left_root
  let right_has_correct_height : Bool :=
    match right with
    | some rn => decide (self_height = rn.2 + 1)
    | none => true
  let hash := H hash1
  if hash = self_root ∧ self_height = left_height + 1 ∧ right_has_correct_height = true then
    .Valid
  else if self_height ≠ left_height + 1 ∨ right_has_correct_height = false then
    .InvalidTree ("An internal node has height which differs from 1 + (child height)")
  else
    .InvalidHash ("An internal node has an unexpected mrkl_root")

/-- `MerkleProofStep` of `src/merkle_proof.rs`. -/
inductive MerkleProofStep : Type where
  | Right (hash : String) : MerkleProofStep
  | Left (hash : String) : MerkleProofStep
  | End : MerkleProofStep
deriving DecidableEq

/-- `MerkleProof` of `src/merkle_proof.rs`. -/
structure MerkleProof : Type where
  steps : List MerkleProofStep
  root_hash : String
  start_hash : String
deriving DecidableEq

/-- `concat_hashes` of `src/hash.rs`: hash of the concatenation. -/
def concat_hashes (H : String → String) (first second : String) : String :=
  H (first ++ second)

/-- The `for step in self.steps` loop of `MerkleProof::verify`
(`src/merkle_proof.rs` lines 21-27); `none` models the early `return false`
taken on an `End` step. -/
def verifyLoop (H : String → String) : String → List MerkleProofStep → Option String
  | hash, [] => some hash
  | hash, MerkleProofStep.Right step_hash :: rest =>
      verifyLoop H (concat_hashes H step_hash hash) rest
  | hash, MerkleProofStep.Left step_hash :: rest =>
      verifyLoop H (concat_hashes H hash step_hash) rest
  | _, MerkleProofStep.End :: _ => none

/-- `MerkleProof::verify` of `src/merkle_proof.rs` (lines 19-29). -/
def MerkleProof.verify (H : String → String) (hashf : T → String)
    (p : MerkleProof) (item : T) : Bool :=
  match verifyLoop H (hashf item) p.steps with
  | some hash => hash == p.root_hash
  | none => false

/-- One proof step as claim C7 reads it: a `Left` digest is a sibling on the
left, hashed as `H(sibling ++ running)`; a `Right` digest is a sibling on the
right, hashed as `H(running ++ sibling)`.  Written from the claim text, to be
compared with the code. -/
def claimStep (H : String → String) (running : String) : MerkleProofStep → String
  | .Left s => H (s ++ running)
  | .Right s => H (running ++ s)
  | .End => running

/-- Verification as claim C7 describes it: fold `claimStep` from `H(item)`
and compare with the stored root digest. -/
def claimVerify (H : String → String) (hashf : T → String)
    (p : MerkleProof) (item : T) : Bool :=
  decide (p.steps.foldl (claimStep H) (hashf item) = p.root_hash)

/-- One proof step as the code implements it: a `Right` digest is hashed on
the left of the running hash, a `Left` digest on the right. -/
def codeStep (H : String → String) (running : String) : MerkleProofStep → String
  | .Right s => H (s ++ running)
  | .Left s => H (running ++ s)
  | .End => running

/-- The bound-routed descent of `contains`, as claim C8 describes it:
follow the same left/right routing as `contains` and report whether the
selected branch at some reached node is a pruned placeholder.  Written from
the claim text, to be compared with the code. -/
def hitsPrunedStep (sb : MerkleBranch T) (rec : Bool) : Bool :=
  match sb with
  | .Branch _ _ _ _ _ _ => rec
  | .Pruned _ => true
  | .Leaf _ _ => false
  | .Empty => false

/-- The descent itself: route by `l_bound` as `contains` does and report
whether the selected branch at some reached node is pruned. -/
def hitsPrunedB [LinearOrder T] (item : T) : MerkleBranch T → Bool
  | .Branch l r lb _ _ _ =>
      if item ≤ lb then hitsPrunedStep l (hitsPrunedB item l)
      else hitsPrunedStep r (hitsPrunedB item r)
  | .Leaf _ _ => false
  | .Pruned _ => false
  | .Empty => false

/-- Search invariant of a well-formed unpruned node: children satisfy it,
`l_bound` is the maximum item of the left child and a member of it, and
every item of the right child is at least `l_bound`.  Constructed trees
satisfy it (see `construct_spec`), and it is exactly what makes the
bound-routed `contains` agree with leaf membership. -/
def WfB [LinearOrder T] : MerkleBranch T → Prop
  | .Branch l r lb _ _ _ =>
      WfB l ∧ WfB r ∧ (∀ y ∈ itemsB l, y ≤ lb) ∧ lb ∈ itemsB l ∧ (∀ y ∈ itemsB r, lb ≤ y)
  | .Leaf _ _ => True
  | .Pruned _ => False
  | .Empty => True

/-- Concatenated leaf items of a row of trees, left to right. -/
def rowItems : List (MerkleTree T) → List T
  | [] => []
  | t :: ts => t.items ++ rowItems ts

/-- A tree is good when it validates strictly, is well formed for search,
and its `r_bound` is the maximum of its items and one of them. -/
def GoodT [LinearOrder T] (H : String → String) (hashf : T → String)
    (t : MerkleTree T) : Prop :=
  validateB H hashf false t.toBranch = .Valid ∧ WfB t.toBranch ∧
    (∀ y ∈ t.items, y ≤ t.r_bound) ∧ t.r_bound ∈ t.items

/-- Invariant of a row inside the construction loop: every tree is good and
sits at the same height, and the concatenation of all leaf items across the
row is sorted. -/
def RowInv [LinearOrder T] (H : String → String) (hashf : T → String)
    (ts : List (MerkleTree T)) (ht : Nat) : Prop :=
  (∀ t ∈ ts, GoodT H hashf t ∧ t.height + 1 = ht) ∧
    List.Sorted (· ≤ ·) (rowItems ts)

/-- A concrete string hash for witnesses and counterexamples. -/
def cH : String → String := fun s => "h(" ++ s ++ ")"

/-- A concrete item hash for witnesses and counterexamples. -/
def cF : Nat → String := fun n => String.mk (List.replicate n 'a')

/-!  Helper lemmas. -/

/-- Induction principle matching the two-at-a-time row consumption of the
builder. -/
theorem two_step_induction {α : Type} {motive : List α → Prop} (h0 : motive [])
    (h1 : ∀ a, motive [a])
    (h2 : ∀ a b rest, motive rest → motive (a :: b :: rest)) :
    ∀ l, motive l
  | [] => h0
  | [a] => h1 a
  | a :: b :: rest => h2 a b rest (two_step_induction h0 h1 h2 rest)

@[simp]
theorem items_mk (l r : MerkleBranch T) (lb rb : T) (root : String) (ht : Nat) :
    MerkleTree.items ⟨l, r, lb, rb, root, ht⟩ = itemsB l ++ itemsB r := rfl

@[simp]
theorem rowItems_nil : rowItems ([] : List (MerkleTree T)) = [] := rfl

@[simp]
theorem rowItems_cons (t : MerkleTree T) (ts : List (MerkleTree T)) :
    rowItems (t :: ts) = t.items ++ rowItems ts := rfl

theorem construct_internal_nodes_length (H : String → String) (ht : Nat) :
    ∀ ts : List (MerkleTree T),
      (construct_internal_nodes H ht ts).length = (ts.length + 1) / 2 := by
  refine two_step_induction (by simp [construct_internal_nodes]) (fun a => by simp [construct_internal_nodes]) ?_
  intro a b rest ih
  simp only [construct_internal_nodes, List.length_cons, ih]
  omega

theorem construct_fringe_nodes_length (H : String → String) (hashf : T → String) :
    ∀ data : List T,
      (construct_fringe_nodes H hashf data).length = (data.length + 1) / 2 := by
  refine two_step_induction (by simp [construct_fringe_nodes]) (fun a => by simp [construct_fringe_nodes]) ?_
  intro a b rest ih
  simp only [construct_fringe_nodes, List.length_cons, ih]
  omega

theorem rowItems_construct_internal_nodes (H : String → String) (ht : Nat) :
    ∀ ts : List (MerkleTree T),
      rowItems (construct_internal_nodes H ht ts) = rowItems ts := by
  refine two_step_induction (by simp [construct_internal_nodes]) ?_ ?_
  · intro a
    simp [construct_internal_nodes, MerkleTree.items, MerkleTree.toBranch, itemsB]
  · intro a b rest ih
    simp [construct_internal_nodes, MerkleTree.items, MerkleTree.toBranch, itemsB, ih,
      List.append_assoc]

theorem rowItems_construct_fringe_nodes (H : String → String) (hashf : T → String) :
    ∀ data : List T, rowItems (construct_fringe_nodes H hashf data) = data := by
  refine two_step_induction (by simp [construct_fringe_nodes]) ?_ ?_
  · intro a
    simp [construct_fringe_nodes, MerkleTree.items, MerkleTree.toBranch, itemsB]
  · intro a b rest ih
    simp [construct_fringe_nodes, MerkleTree.items, MerkleTree.toBranch, itemsB, ih]

theorem validate_fringe_pair (H : String → String) (hashf : T → String) (x y : T) :
    validateB H hashf false
      (MerkleTree.toBranch ⟨.Leaf x (hashf x), .Leaf y (hashf y), x, y,
        H (hashf x ++ hashf y), 0⟩) = .Valid := by
  simp [MerkleTree.toBranch, validateB, validate_fringe_node, fringe_checks]

theorem validate_fringe_single (H : String → String) (hashf : T → String) (x : T) :
    validateB H hashf false
      (MerkleTree.toBranch ⟨.Leaf x (hashf x), .Empty, x, x, H (hashf x), 0⟩) = .Valid := by
  simp [MerkleTree.toBranch, validateB, validate_fringe_node, fringe_checks]

theorem validate_internal_pair (H : String → String) (hashf : T → String)
    (a b : MerkleTree T) (ht : Nat)
    (hva : validateB H hashf false a.toBranch = .Valid)
    (hvb : validateB H hashf false b.toBranch = .Valid)
    (hha : a.height + 1 = ht) (hhb : b.height + 1 = ht) :
    validateB H hashf false
      (MerkleTree.toBranch ⟨a.toBranch, b.toBranch, a.r_bound, b.r_bound,
        H (a.mrkl_root ++ b.mrkl_root), ht⟩) = .Valid := by
  obtain ⟨al, ar, alb, arb, aroot, aht⟩ := a
  obtain ⟨bl, br, blb, brb, broot, bht⟩ := b
  simp only [MerkleTree.toBranch] at *
  rw [validateB, hva, hvb]
  simp only [validate_internal_node]
  rw [if_pos]
  refine ⟨by trivial, by omega, ?_⟩
  simp only [decide_eq_true_eq]
  omega

theorem validate_internal_single (H : String → String) (hashf : T → String)
    (a : MerkleTree T) (ht : Nat)
    (hva : validateB H hashf false a.toBranch = .Valid)
    (hha : a.height + 1 = ht) :
    validateB H hashf false
      (MerkleTree.toBranch ⟨a.toBranch, .Empty, a.r_bound, a.r_bound,
        H a.mrkl_root, ht⟩) = .Valid := by
  obtain ⟨al, ar, alb, arb, aroot, aht⟩ := a
  simp only [MerkleTree.toBranch] at *
  rw [validateB, hva]
  simp only [validate_internal_node]
  rw [if_pos]
  exact ⟨by trivial, by omega, by trivial⟩

theorem rowInv_nil [LinearOrder T] (H : String → String) (hashf : T → String) (ht : Nat) :
    RowInv H hashf ([] : List (MerkleTree T)) ht := by
  refine ⟨fun t htm => absurd htm (List.not_mem_nil t), ?_⟩
  simp [List.Sorted]

/-- One internal level preserves the row invariant, moving it up one
height. -/
theorem construct_internal_nodes_inv [LinearOrder T] (H : String → String)
    (hashf : T → String) (ht : Nat) :
    ∀ ts : List (MerkleTree T), RowInv H hashf ts ht →
      RowInv H hashf (construct_internal_nodes H ht ts) (ht + 1) := by
  refine two_step_induction ?_ ?_ ?_
  · intro _
    simpa [construct_internal_nodes] using rowInv_nil H hashf (ht + 1)
  · rintro a ⟨hmem, hsort⟩
    obtain ⟨⟨hva, hwa, hmax, hrmem⟩, hha⟩ := hmem a (by simp)
    simp only [construct_internal_nodes]
    constructor
    · intro t htm
      rw [List.mem_singleton] at htm
      subst htm
      refine ⟨⟨validate_internal_single H hashf a ht hva hha, ?_, ?_, ?_⟩, rfl⟩
      · simp only [MerkleTree.toBranch, WfB, itemsB]
        exact ⟨hwa, trivial, hmax, hrmem, by simp⟩
      · simpa [MerkleTree.items, MerkleTree.toBranch, itemsB] using hmax
      · simpa [MerkleTree.items, MerkleTree.toBranch, itemsB] using hrmem
    · simpa [MerkleTree.items, MerkleTree.toBranch, itemsB] using hsort
  · rintro a b rest ih ⟨hmem, hsort⟩
    obtain ⟨⟨hva, hwa, hmaxa, hrmema⟩, hha⟩ := hmem a (by simp)
    obtain ⟨⟨hvb, hwb, hmaxb, hrmemb⟩, hhb⟩ := hmem b (by simp)
    have hsort' : List.Sorted (· ≤ ·) (a.items ++ (b.items ++ rowItems rest)) := by
      simpa [rowItems_cons] using hsort
    obtain ⟨hsa, hsbr, hcross⟩ := List.pairwise_append.mp hsort'
    obtain ⟨hsb, hsr, hcross2⟩ := List.pairwise_append.mp hsbr
    have hab : a.r_bound ≤ b.r_bound :=
      hcross _ hrmema _ (List.mem_append_left _ hrmemb)
    have ihr : RowInv H hashf (construct_internal_nodes H ht rest) (ht + 1) := by
      refine ih ⟨fun t htm => hmem t (by simp [htm]), hsr⟩
    obtain ⟨ihmem, ihsort⟩ := ihr
    simp only [construct_internal_nodes]
    constructor
    · intro t htm
      rw [List.mem_cons] at htm
      rcases htm with htm | htm
      · subst htm
        refine ⟨⟨validate_internal_pair H hashf a b ht hva hvb hha hhb, ?_, ?_, ?_⟩, rfl⟩
        · simp only [MerkleTree.toBranch, WfB]
          refine ⟨hwa, hwb, hmaxa, hrmema, ?_⟩
          intro y hy
          exact hcross _ hrmema _ (List.mem_append_left _ hy)
        · simp only [items_mk]
          intro y hy
          rcases List.mem_append.mp hy with hy | hy
          · exact le_trans (hmaxa y hy) hab
          · exact hmaxb y hy
        · simp only [items_mk]
          exact List.mem_append_right _ hrmemb
      · exact ihmem t htm
    · rw [rowItems_cons, rowItems_construct_internal_nodes]
      have : MerkleTree.items
          ⟨a.toBranch, b.toBranch, a.r_bound, b.r_bound,
            H (a.mrkl_root ++ b.mrkl_root), ht⟩ = a.items ++ b.items := rfl
      rw [this, List.append_assoc]
      simpa [rowItems_cons] using hsort

/-- The construction loop: with enough fuel and the row invariant it returns
a good tree carrying all items of the row, at the expected height. -/
theorem build_loop_spec [LinearOrder T] (H : String → String) (hashf : T → String) :
    ∀ (fuel : Nat) (ts : List (MerkleTree T)) (ht : Nat),
      ts ≠ [] → ts.length ≤ fuel + 1 → RowInv H hashf ts ht →
      ∃ t, build_loop H fuel ts ht = some t ∧ GoodT H hashf t ∧
        t.items = rowItems ts ∧ t.height + 1 = ht + Nat.clog 2 ts.length := by
  intro fuel
  induction fuel with
  | zero =>
      intro ts ht hne hlen hinv
      match ts with
      | [] => exact absurd rfl hne
      | [t] =>
          refine ⟨t, rfl, (hinv.1 t (by simp)).1, by simp, ?_⟩
          rw [List.length_singleton, Nat.clog_one_right]
          exact (hinv.1 t (by simp)).2
      | a :: b :: rest => simp at hlen
  | succ fuel ih =>
      intro ts ht hne hlen hinv
      match ts with
      | [] => exact absurd rfl hne
      | [t] =>
          refine ⟨t, rfl, (hinv.1 t (by simp)).1, by simp, ?_⟩
          rw [List.length_singleton, Nat.clog_one_right]
          exact (hinv.1 t (by simp)).2
      | a :: b :: rest =>
          have hrow := construct_internal_nodes_inv H hashf ht (a :: b :: rest) hinv
          have hrlen : (construct_internal_nodes H ht (a :: b :: rest)).length =
              ((a :: b :: rest).length + 1) / 2 :=
            construct_internal_nodes_length H ht _
          have hrne : construct_internal_nodes H ht (a :: b :: rest) ≠ [] := by
            refine List.ne_nil_of_length_pos ?_
            rw [hrlen]
            simp only [List.length_cons]
            omega
          have hrle : (construct_internal_nodes H ht (a :: b :: rest)).length ≤ fuel + 1 := by
            rw [hrlen]
            simp only [List.length_cons] at hlen ⊢
            omega
          obtain ⟨t, hres, hgood, hitems, hheight⟩ :=
            ih (construct_internal_nodes H ht (a :: b :: rest)) (ht + 1) hrne hrle hrow
          refine ⟨t, ?_, hgood, ?_, ?_⟩
          · rw [build_loop]
            exact hres
          · rw [hitems, rowItems_construct_internal_nodes]
          · rw [hheight, hrlen]
            have h2 : 2 ≤ (a :: b :: rest).length := by
              simp only [List.length_cons]
              omega
            rw [Nat.clog_of_two_le (by norm_num) h2]
            have : ((a :: b :: rest).length + 2 - 1) / 2 = ((a :: b :: rest).length + 1) / 2 := by
              omega
            rw [this]
            omega

/-- The fringe row of a sorted list satisfies the row invariant at height
one. -/
theorem construct_fringe_nodes_inv [LinearOrder T] (H : String → String)
    (hashf : T → String) :
    ∀ data : List T, List.Sorted (· ≤ ·) data →
      RowInv H hashf (construct_fringe_nodes H hashf data) 1 := by
  refine two_step_induction ?_ ?_ ?_
  · intro _
    simpa [construct_fringe_nodes] using rowInv_nil H hashf 1
  · intro x _
    simp only [construct_fringe_nodes]
    constructor
    · intro t htm
      rw [List.mem_singleton] at htm
      subst htm
      refine ⟨⟨validate_fringe_single H hashf x, ?_, ?_, ?_⟩, rfl⟩
      · simp [MerkleTree.toBranch, WfB, itemsB]
      · simp [MerkleTree.items, MerkleTree.toBranch, itemsB]
      · simp [MerkleTree.items, MerkleTree.toBranch, itemsB]
    · simp [MerkleTree.items, MerkleTree.toBranch, itemsB, List.Sorted]
  · intro x y rest ih hsort
    obtain ⟨hx, hsort1⟩ := List.sorted_cons.mp hsort
    obtain ⟨hy, hsort2⟩ := List.sorted_cons.mp hsort1
    have hxy : x ≤ y := hx y (by simp)
    obtain ⟨ihmem, ihsort⟩ := ih hsort2
    simp only [construct_fringe_nodes]
    constructor
    · intro t htm
      rw [List.mem_cons] at htm
      rcases htm with htm | htm
      · subst htm
        refine ⟨⟨validate_fringe_pair H hashf x y, ?_, ?_, ?_⟩, rfl⟩
        · simp only [MerkleTree.toBranch, WfB, itemsB]
          refine ⟨trivial, trivial, ?_, ?_, ?_⟩ <;> simp [hxy]
        · simp only [items_mk, itemsB]
          intro z hz
          rcases List.mem_append.mp hz with hz | hz <;> simp_all
        · simp [itemsB]
      · exact ihmem t htm
    · rw [rowItems_cons, rowItems_construct_fringe_nodes]
      have : MerkleTree.items
          ⟨.Leaf x (hashf x), .Leaf y (hashf y), x, y, H (hashf x ++ hashf y), 0⟩ =
            [x, y] := rfl
      rw [this]
      simpa using hsort

/-- Full specification of `construct` on nonempty input: it succeeds, the
tree validates strictly, is well formed for search, carries exactly the
sorted input items, and has the height forced by the level-synchronous
build. -/
theorem construct_spec [LinearOrder T] (H : String → String) (hashf : T → String)
    (data : List T) (hne : data ≠ []) :
    ∃ t, construct H hashf data = .ok t ∧ GoodT H hashf t ∧
      t.items = data.insertionSort (· ≤ ·) ∧
      t.height = Nat.clog 2 ((data.length + 1) / 2) := by
  have hslen : (data.insertionSort (· ≤ ·)).length = data.length :=
    List.length_insertionSort _ _
  have hsne : data.insertionSort (· ≤ ·) ≠ [] := by
    intro h
    apply hne
    have := hslen
    rw [h] at this
    exact List.eq_nil_of_length_eq_zero this.symm
  have hspos : 0 < (data.insertionSort (· ≤ ·)).length := List.length_pos.mpr hsne
  have hfinv : RowInv H hashf
      (construct_fringe_nodes H hashf (data.insertionSort (· ≤ ·))) 1 :=
    construct_fringe_nodes_inv H hashf _ (List.sorted_insertionSort _ _)
  have hflen := construct_fringe_nodes_length H hashf (data.insertionSort (· ≤ ·))
  have hfne : construct_fringe_nodes H hashf (data.insertionSort (· ≤ ·)) ≠ [] := by
    refine List.ne_nil_of_length_pos ?_
    rw [hflen]
    omega
  have hfle : (construct_fringe_nodes H hashf (data.insertionSort (· ≤ ·))).length ≤
      (data.insertionSort (· ≤ ·)).length + 1 := by
    rw [hflen]
    omega
  obtain ⟨t, hloop, hgood, hitems, hh⟩ :=
    build_loop_spec H hashf (data.insertionSort (· ≤ ·)).length
      (construct_fringe_nodes H hashf (data.insertionSort (· ≤ ·))) 1 hfne hfle hfinv
  refine ⟨t, ?_, hgood, ?_, ?_⟩
  · simp only [construct]
    rw [if_neg (by omega : ¬ (data.insertionSort (· ≤ ·)).length < 1), hloop]
  · rw [hitems, rowItems_construct_fringe_nodes]
  · rw [hflen, hslen] at hh
    omega

/-- Construction fails exactly on empty input. -/
theorem construct_eq_error_iff [LinearOrder T] (H : String → String)
    (hashf : T → String) (data : List T) :
    (∃ msg, construct H hashf data = .error msg) ↔ data = [] := by
  constructor
  · rintro ⟨msg, hmsg⟩
    by_contra hne
    obtain ⟨t, hok, _⟩ := construct_spec H hashf data hne
    rw [hok] at hmsg
    cases hmsg
  · rintro rfl
    exact ⟨_, rfl⟩

/-- On a well-formed node the bound-routed search decides leaf
membership. -/
theorem containsB_ok [LinearOrder T] (x : T) (b : MerkleBranch T) (hw : WfB b) :
    ∀ l r lb rb root ht, b = .Branch l r lb rb root ht →
      containsB x b = .ok (decide (x ∈ itemsB b)) := by
  induction b with
  | Branch l r lb rb root ht ihl ihr =>
      intro _ _ _ _ _ _ _
      rw [WfB] at hw
      obtain ⟨hwl, hwr, hmax, hmem, hright⟩ := hw
      rw [containsB]
      by_cases hle : x ≤ lb
      · rw [if_pos hle]
        cases l with
        | Branch ll lr llb lrb lroot lht =>
            rw [ihl hwl ll lr llb lrb lroot lht rfl]
            simp only [search_step]
            congr 1
            rw [decide_eq_decide]
            simp only [itemsB, List.mem_append]
            constructor
            · exact fun h => Or.inl h
            · rintro (h | h)
              · exact h
              · have hlbx : lb ≤ x := hright x h
                have hx : x = lb := le_antisymm hle hlbx
                rw [hx]
                simpa only [itemsB, List.mem_append] using hmem
        | Leaf v hsh =>
            simp only [search_step]
            congr 1
            rw [decide_eq_decide]
            simp only [itemsB, List.mem_append, List.mem_singleton] at hmem ⊢
            constructor
            · exact fun h => Or.inl h.symm
            · rintro (h | h)
              · exact h.symm
              · have hlbx : lb ≤ x := hright x h
                have hx : x = lb := le_antisymm hle hlbx
                rw [hx, hmem]
        | Pruned hsh =>
            rw [WfB] at hwl
            exact hwl.elim
        | Empty =>
            rw [itemsB] at hmem
            exact absurd hmem (List.not_mem_nil lb)
      · rw [if_neg hle]
        push_neg at hle
        cases r with
        | Branch rl rr rlb rrb rroot rht =>
            rw [ihr hwr rl rr rlb rrb rroot rht rfl]
            simp only [search_step]
            congr 1
            rw [decide_eq_decide]
            simp only [itemsB, List.mem_append]
            constructor
            · exact fun h => Or.inr h
            · rintro (h | h)
              · exact absurd (hmax x h) (not_le.mpr hle)
              · exact h
        | Leaf v hsh =>
            simp only [search_step]
            congr 1
            rw [decide_eq_decide]
            simp only [itemsB, List.mem_append, List.mem_singleton]
            constructor
            · exact fun h => Or.inr h.symm
            · rintro (h | h)
              · exact absurd (hmax x h) (not_le.mpr hle)
              · exact h.symm
        | Pruned hsh =>
            rw [WfB] at hwr
            exact hwr.elim
        | Empty =>
            simp only [search_step]
            congr 1
            simp only [itemsB, List.append_nil]
            symm
            rw [decide_eq_false_iff_not]
            intro hmm
            exact absurd (hmax x hmm) (not_le.mpr hle)
  | Leaf v hsh => intro _ _ _ _ _ _ h; cases h
  | Pruned hsh => intro _ _ _ _ _ _ h; cases h
  | Empty => intro _ _ _ _ _ _ h; cases h

/-- When the bound-routed descent reaches a pruned placeholder, `contains`
reports the search error. -/
theorem containsB_error_of_hits [LinearOrder T] (x : T) :
    ∀ b : MerkleBranch T, hitsPrunedB x b = true →
      containsB x b = .error ("Could not search further in pruned tree") := by
  intro b
  induction b with
  | Branch l r lb rb root ht ihl ihr =>
      intro hh
      rw [hitsPrunedB] at hh
      rw [containsB]
      by_cases hle : x ≤ lb
      · rw [if_pos hle] at hh ⊢
        cases l with
        | Branch ll lr llb lrb lroot lht =>
            rw [hitsPrunedStep] at hh
            rw [ihl hh]
            rfl
        | Leaf v hsh => exact absurd hh (by rw [hitsPrunedStep]; simp)
        | Pruned hsh => rfl
        | Empty => exact absurd hh (by rw [hitsPrunedStep]; simp)
      · rw [if_neg hle] at hh ⊢
        cases r with
        | Branch rl rr rlb rrb rroot rht =>
            rw [hitsPrunedStep] at hh
            rw [ihr hh]
            rfl
        | Leaf v hsh => exact absurd hh (by rw [hitsPrunedStep]; simp)
        | Pruned hsh => rfl
        | Empty => exact absurd hh (by rw [hitsPrunedStep]; simp)
  | Leaf v hsh => intro hh; exact absurd hh (by rw [hitsPrunedB]; simp)
  | Pruned hsh => intro hh; exact absurd hh (by rw [hitsPrunedB]; simp)
  | Empty => intro hh; exact absurd hh (by rw [hitsPrunedB]; simp)

/-- The `verify` loop on `End`-free steps is the left fold of the code step
function. -/
theorem verifyLoop_eq (H : String → String) :
    ∀ (steps : List MerkleProofStep) (hash : String), MerkleProofStep.End ∉ steps →
      verifyLoop H hash steps = some (steps.foldl (codeStep H) hash) := by
  intro steps
  induction steps with
  | nil => intro _ _; rfl
  | cons s rest ih =>
      intro hash hnot
      have hnr : MerkleProofStep.End ∉ rest := fun h => hnot (List.mem_cons_of_mem _ h)
      cases s with
      | Right d =>
          rw [verifyLoop, ih _ hnr]
          rfl
      | Left d =>
          rw [verifyLoop, ih _ hnr]
          rfl
      | End => exact absurd (List.mem_cons_self _ _) hnot

/-! Claim theorems. -/

/-- C1: for every nonempty item sequence, `construct(items)` succeeds and
strict `validate()` on the resulting tree returns `Valid`. -/
theorem c1_construct_validate_valid [LinearOrder T] (H : String → String)
    (hashf : T → String) (data : List T) (hne : data ≠ []) :
    ∃ t, construct H hashf data = .ok t ∧ MerkleTree.validate H hashf t = .Valid := by
  obtain ⟨t, hok, hgood, _, _⟩ := construct_spec H hashf data hne
  exact ⟨t, hok, hgood.1⟩

/-- C1 witness at a concrete input. -/
theorem c1_construct_validate_valid_witness :
    ∃ t, construct cH cF [5, 3] = .ok t ∧ MerkleTree.validate cH cF t = .Valid :=
  c1_construct_validate_valid cH cF [5, 3] (by decide)

/-- C2 (code bug): pruning the valid tree over items 1..4 keeping item 3
succeeds and leaves the top root digest unchanged, yet pruned validation
rejects the result with `InvalidTree`, because `validate_pruned_node`
validates the surviving sibling strictly, and the sibling now contains a
pruned leaf. -/
theorem c2_prune_then_validate_pruned_rejects :
    ∃ t t' : MerkleTree Nat,
      construct cH cF [1, 2, 3, 4] = .ok t ∧
      MerkleTree.validate cH cF t = .Valid ∧
      MerkleTree.prune cH cF [3] t = (true, t') ∧
      t'.mrkl_root = t.mrkl_root ∧
      MerkleTree.validate_pruned cH cF t' = .InvalidTree ("Unexpected pruned tree.") := by
  refine ⟨⟨.Branch (.Leaf 1 ("a")) (.Leaf 2 ("aa")) 1 2 ("h(aaa)") 0,
      .Branch (.Leaf 3 ("aaa")) (.Leaf 4 ("aaaa")) 3 4 ("h(aaaaaaa)") 0,
      2, 4, ("h(h(aaa)h(aaaaaaa))"), 1⟩,
    ⟨.Pruned ("h(aaa)"),
      .Branch (.Leaf 3 ("aaa")) (.Pruned ("aaaa")) 3 4 ("h(aaaaaaa)") 0,
      2, 4, ("h(h(aaa)h(aaaaaaa))"), 1⟩, ?_, ?_, ?_, ?_, ?_⟩
  · rfl
  · decide
  · decide
  · decide
  · decide

/-- C3: after bound-tracking construction, which sorts the items first, an
unpruned tree answers membership exactly: `Ok true` for every item of the
input vector and `Ok false` for every other item. -/
theorem c3_contains_decides_membership [LinearOrder T] (H : String → String)
    (hashf : T → String) (data : List T) (t : MerkleTree T)
    (hok : construct H hashf data = .ok t) (x : T) :
    MerkleTree.contains x t = .ok (decide (x ∈ data)) := by
  have hne : data ≠ [] := by
    rintro rfl
    obtain ⟨msg, hmsg⟩ := (construct_eq_error_iff H hashf []).mpr rfl
    rw [hmsg] at hok
    cases hok
  obtain ⟨u, hoku, hgood, hitems, _⟩ := construct_spec H hashf data hne
  rw [hoku] at hok
  injection hok with hok
  subst hok
  obtain ⟨hval, hwf, hmax, hmem⟩ := hgood
  have h := containsB_ok x u.toBranch hwf u.left u.right u.l_bound u.r_bound
    u.mrkl_root u.height rfl
  rw [MerkleTree.contains, h]
  congr 1
  rw [decide_eq_decide]
  have hib : itemsB u.toBranch = u.items := rfl
  rw [hib, hitems]
  exact List.mem_insertionSort _

/-- C3 witness at a concrete input. -/
theorem c3_contains_decides_membership_witness :
    ∃ t, construct cH cF [2, 1] = .ok t ∧
      MerkleTree.contains 1 t = .ok true ∧ MerkleTree.contains 5 t = .ok false := by
  obtain ⟨t, hok, _, _, _⟩ := construct_spec cH cF [2, 1] (by decide)
  refine ⟨t, hok, ?_, ?_⟩
  · rw [c3_contains_decides_membership cH cF [2, 1] t hok 1]
    congr 1
  · rw [c3_contains_decides_membership cH cF [2, 1] t hok 5]
    congr 1

/-- C4 (code bug): a node whose right child is `Partial` and whose root
digest is the honest `H(other_root ++ partial_digest)` is rejected by
pruned validation with `InvalidHash`, because `validate_pruned_node`
always puts the partial digest first when the surviving sibling is a
`Branch`, regardless of which side was pruned. -/
theorem c4_pruned_side_order_violated :
    MerkleTree.validate_pruned cH cF
      ⟨.Branch (.Leaf 1 ("a")) (.Leaf 2 ("aa")) 1 2 ("h(aaa)") 0,
        .Pruned ("P"), 2, 2, cH ("h(aaa)" ++ "P"), 1⟩ =
      .InvalidHash ("An internal node had an unexpected mrkl_root") := by decide

/-- C5 (code bug): in the blockchain variant an internal node with a wrong
stored root digest but correct child heights yields `InvalidTree`, not
`InvalidHash` (the right-height flag is not negated in the second
condition); the digest-only variant of `src/merkle.rs` returns
`InvalidHash` there, as the claim states. -/
theorem c5_invalid_hash_precedence_violated :
    MerkleTree.validate cH cF
      ⟨.Branch (.Leaf 1 ("a")) (.Leaf 2 ("aa")) 1 2 ("h(aaa)") 0,
        .Branch (.Leaf 3 ("aaa")) (.Leaf 4 ("aaaa")) 3 4 ("h(aaaaaaa)") 0,
        2, 4, ("bogus"), 1⟩ =
      .InvalidTree ("An internal node has height which differs from 1 + (child height)") ∧
    DigestOnly.validate_internal_node cH ("bogus") 1 ("x") 0 (some (("y"), 0)) =
      .InvalidHash ("An internal node has an unexpected mrkl_root") :=
  ⟨by decide, by decide⟩

/-- C6 counterexample: the tree built from two items has root height 0,
while ceil(log2 2) = 1. -/
theorem c6_height_counterexample :
    ∃ t : MerkleTree Nat, construct cH cF [1, 2] = .ok t ∧
      t.height ≠ Nat.clog 2 (([1, 2] : List Nat).length) := by
  refine ⟨⟨.Leaf 1 ("a"), .Leaf 2 ("aa"), 1, 2, ("h(aaa)"), 0⟩, by rfl, ?_⟩
  have h1 : Nat.clog 2 2 = 1 := Nat.clog_eq_one (by norm_num) (by norm_num)
  simp [h1]

/-- C6 amended: for a tree built from n items the root height equals
ceil(log2(ceil(n/2))) — that is ceil(log2 n) - 1 for n at least 2, and 0
for n = 1 — because a height-0 fringe node already holds two items. -/
theorem c6_height_amended [LinearOrder T] (H : String → String) (hashf : T → String)
    (data : List T) (t : MerkleTree T) (hok : construct H hashf data = .ok t) :
    t.height = Nat.clog 2 ((data.length + 1) / 2) := by
  have hne : data ≠ [] := by
    rintro rfl
    obtain ⟨msg, hmsg⟩ := (construct_eq_error_iff H hashf []).mpr rfl
    rw [hmsg] at hok
    cases hok
  obtain ⟨u, hoku, _, _, hh⟩ := construct_spec H hashf data hne
  rw [hoku] at hok
  injection hok with hok
  subst hok
  exact hh

/-- C6 amended witness at a concrete input. -/
theorem c6_height_amended_witness :
    ∃ t, construct cH cF [1, 2, 3] = .ok t ∧
      t.height = Nat.clog 2 ((([1, 2, 3] : List Nat).length + 1) / 2) := by
  obtain ⟨t, hok, _, _, _⟩ := construct_spec cH cF [1, 2, 3] (by decide)
  exact ⟨t, hok, c6_height_amended cH cF [1, 2, 3] t hok⟩

/-- C7 counterexample: on a one-step proof holding a `Left` sibling digest,
the code accepts the root `H(running ++ sibling)` (here with `H` the
identity and item hash the identity: root "ab"), while the mapping the
claim states — `H(sibling ++ running)` for `Left` — yields "ba" and would
reject it. -/
theorem c7_direction_counterexample :
    MerkleProof.verify (fun s => s) (fun s : String => s)
      ⟨[MerkleProofStep.Left ("b")], ("ab"), ("a")⟩ ("a") = true ∧
    claimVerify (fun s => s) (fun s : String => s)
      ⟨[MerkleProofStep.Left ("b")], ("ab"), ("a")⟩ ("a") = false :=
  ⟨by decide, by decide⟩

/-- C7 amended: verification starts from `H(item)` and, leaf to root,
applies `H(running ++ sibling)` for a `Left(digest)` step and
`H(sibling ++ running)` for a `Right(digest)` step — the opposite
orientation to the claim — and, for proofs whose steps are all directional
(no `End` marker), returns true iff the final value equals the stored root
digest. -/
theorem c7_fold_characterization (H : String → String) (hashf : T → String)
    (p : MerkleProof) (item : T) (hEnd : MerkleProofStep.End ∉ p.steps) :
    MerkleProof.verify H hashf p item =
      decide (p.steps.foldl (codeStep H) (hashf item) = p.root_hash) := by
  rw [MerkleProof.verify, verifyLoop_eq H p.steps (hashf item) hEnd]
  by_cases h : p.steps.foldl (codeStep H) (hashf item) = p.root_hash
  · simp [h]
  · simp [h]

/-- C7 amended witness at a concrete input. -/
theorem c7_fold_characterization_witness :
    MerkleProof.verify (fun s => s) (fun s : String => s)
      ⟨[MerkleProofStep.Right ("b")], ("ba"), ("a")⟩ ("a") =
      decide (([MerkleProofStep.Right ("b")].foldl (codeStep (fun s => s)) ("a")) = ("ba")) :=
  c7_fold_characterization (fun s => s) (fun s : String => s)
    ⟨[MerkleProofStep.Right ("b")], ("ba"), ("a")⟩ ("a") (by decide)

/-- C8: whenever the bound-routed descent of `contains(item)` reaches a
`Partial` branch, `contains` returns the explicit search error, never a
plain false. -/
theorem c8_contains_errors_on_pruned [LinearOrder T] (x : T) (t : MerkleTree T)
    (hh : hitsPrunedB x t.toBranch = true) :
    MerkleTree.contains x t = .error ("Could not search further in pruned tree") :=
  containsB_error_of_hits x t.toBranch hh

/-- C8 witness at a concrete input. -/
theorem c8_contains_errors_on_pruned_witness :
    MerkleTree.contains 1
      (⟨.Pruned ("h"), .Leaf 2 ("aa"), 1, 2, ("r"), 0⟩ : MerkleTree Nat) =
      .error ("Could not search further in pruned tree") :=
  c8_contains_errors_on_pruned 1 _ (by decide)

/-- C9: `construct` returns a construction error iff the input is empty; in
particular every singleton input yields a tree. -/
theorem c9_construct_error_iff_empty [LinearOrder T] (H : String → String)
    (hashf : T → String) :
    (∀ data : List T, (∃ msg, construct H hashf data = .error msg) ↔ data = []) ∧
    (∀ x : T, ∃ t, construct H hashf [x] = .ok t) := by
  refine ⟨construct_eq_error_iff H hashf, ?_⟩
  intro x
  obtain ⟨t, hok, _, _, _⟩ := construct_spec H hashf [x] (by simp)
  exact ⟨t, hok⟩

/-- C10: if `to_keep` is empty or the tree fails strict validation,
`prune` returns false and every field of the tree is unchanged. -/
theorem c10_prune_noop [LinearOrder T] (H : String → String) (hashf : T → String)
    (to_keep : List T) (t : MerkleTree T)
    (h : to_keep = [] ∨ MerkleTree.validate H hashf t ≠ .Valid) :
    MerkleTree.prune H hashf to_keep t = (false, t) := by
  obtain ⟨l, r, lb, rb, root, ht⟩ := t
  have htb : MerkleTree.toBranch ⟨l, r, lb, rb, root, ht⟩ = .Branch l r lb rb root ht := rfl
  rw [MerkleTree.prune, htb, pruneB]
  rcases h with h | h
  · subst h
    cases hv : validateB H hashf false (.Branch l r lb rb root ht) <;> simp
  · have hv : validateB H hashf false (.Branch l r lb rb root ht) ≠ .Valid := by
      simpa [MerkleTree.validate, MerkleTree.toBranch] using h
    cases hvv : validateB H hashf false (.Branch l r lb rb root ht) with
    | Valid => exact absurd hvv hv
    | InvalidHash m => simp
    | InvalidTree m => simp

/-- C10 witness at a concrete input. -/
theorem c10_prune_noop_witness :
    MerkleTree.prune cH cF []
      (⟨.Leaf 1 ("a"), .Leaf 2 ("aa"), 1, 2, ("h(aaa)"), 0⟩ : MerkleTree Nat) =
      (false, ⟨.Leaf 1 ("a"), .Leaf 2 ("aa"), 1, 2, ("h(aaa)"), 0⟩) :=
  c10_prune_noop cH cF [] _ (Or.inl rfl)

end Newton
